import Mathlib

/-!
Shallow embedding of the linked-list repository (four Rust source files:
`first.rs`, `second.rs`, `third.rs`, `fifth.rs`) and proofs of the frozen
claims about it.

Modelling conventions:
* Rust `Box<Node>` indirection is transparent in a value semantics, so a
  boxed node is embedded as the node value itself.
* A Rust method taking `&mut self` is embedded as a function from the old
  list value to (result, new list value); a `&self` method is a pure
  function of the list value.
* `i32` elements (`first.rs`) are embedded as `Int`; the stack operations
  perform no arithmetic, so only the type identity matters.
* Raw pointers (`fifth.rs`) are embedded as `Option Nat` addresses into an
  explicit heap `Nat → Option (Node T)` with a bump allocator counter;
  `ptr::null_mut()` is `none` and `Box::into_raw`/`Box::from_raw` become
  heap insertion/removal at an address.
-/

set_option autoImplicit false

/-- Alias for Lean's own list type, used inside namespaces that declare a
structure named `List` mirroring the Rust type of the same name. -/
abbrev LList (α : Type) : Type := List α

namespace First

mutual

/-- Mirrors `first.rs`: `enum Link { Empty, More(Box<Node>) }`. -/
inductive Link : Type where
  | Empty : Link
  | More : Node → Link

/-- Mirrors `first.rs`: `struct Node { elem: i32, next: Link }`. -/
inductive Node : Type where
  | mk : Int → Link → Node

end

/-- Field accessor for `Node.elem`. -/
def Node.elem : Node → Int
  | .mk e _ => e

/-- Field accessor for `Node.next`. -/
def Node.next : Node → Link
  | .mk _ n => n

/-- Mirrors `first.rs`: `pub struct List { head: Link }`. -/
structure List : Type where
  head : Link

/-- Mirrors `List::new`: `List { head: Link::Empty }`. -/
def List.new : List :=
  { head := Link.Empty }

/-- Mirrors `List::push`: the new node takes ownership of the old head
(`mem::replace(&mut self.head, Link::Empty)`) and becomes the new head. -/
def List.push (l : List) (elem : Int) : List :=
  { head := Link.More (Node.mk elem l.head) }

/-- Mirrors `List::pop`: `mem::replace` the head with `Empty`; on `Empty`
return `None` (head stays `Empty`), on `More(node)` the node's successor
becomes the head and the node's element is returned. -/
def List.pop (l : List) : Option Int × List :=
  match l.head with
  | Link.Empty => (none, { head := Link.Empty })
  | Link.More node => (some node.elem, { head := node.next })

/-- The elements stored along a link chain, head first. -/
def linkElems : Link → LList Int
  | Link.Empty => []
  | Link.More (Node.mk e rest) => e :: linkElems rest

/-- The elements of a `first.rs` list, head first. -/
def List.elems (l : List) : LList Int :=
  linkElems l.head

/-- The list state after one `pop` call (the result value discarded). -/
def List.popAdv (l : List) : List :=
  (l.pop).2

/-- The value returned by the `(n+1)`-st `pop` call in a run of repeated
pops starting from `l` (`n = 0` is the first call). -/
def List.popOut (l : List) (n : Nat) : Option Int :=
  ((List.popAdv^[n] l).pop).1

/-- Pushing each element of `xs` in order, mirroring a Rust loop of
`list.push(x)` calls. -/
def List.pushAll (l : List) (xs : LList Int) : List :=
  xs.foldl List.push l

/-- One iteration of the `Drop` loop of `first.rs`: the current boxed node is
freed after its `next` is `mem::replace`d out, which becomes the link to
process next; `Empty` means the loop has exited. -/
def dropStep : Link → Link
  | Link.Empty => Link.Empty
  | Link.More node => node.next

theorem linkElems_push (l : List) (x : Int) :
    (l.push x).elems = x :: l.elems := rfl

theorem elems_pushAll_int (xs : LList Int) :
    ∀ l : List, (l.pushAll xs).elems = xs.reverse ++ l.elems := by
  induction xs with
  | nil => intro l; rfl
  | cons x xs ih =>
      intro l
      show ((l.push x).pushAll xs).elems = (x :: xs).reverse ++ l.elems
      rw [ih (l.push x), linkElems_push]
      simp

theorem popOut_eq_elems_get_int (n : Nat) :
    ∀ l : List, l.popOut n = l.elems[n]? := by
  induction n with
  | zero =>
      intro l
      cases l with
      | mk head =>
        cases head with
        | Empty => simp [List.popOut, List.pop, List.elems, linkElems]
        | More node =>
            cases node with
            | mk e rest =>
                simp [List.popOut, List.pop, List.elems, linkElems, Node.elem]
  | succ n ih =>
      intro l
      have h : l.popOut (n + 1) = (l.popAdv).popOut n := by
        simp [List.popOut, Function.iterate_succ_apply]
      rw [h, ih]
      cases l with
      | mk head =>
        cases head with
        | Empty => simp [List.popAdv, List.pop, List.elems, linkElems]
        | More node =>
            cases node with
            | mk e rest =>
                simp [List.popAdv, List.pop, List.elems, linkElems, Node.next]

/-- The observable results of the `basics` test scenario of `first.rs`:
push 1, 2, 3; pop twice; push 4, 5; pop four times; collect the six pop
results in order. -/
def basicsPops : LList (Option Int) :=
  let s := List.new
  let s := s.push 1
  let s := s.push 2
  let s := s.push 3
  let p1 := s.pop
  let p2 := p1.2.pop
  let s := p2.2.push 4
  let s := s.push 5
  let p3 := s.pop
  let p4 := p3.2.pop
  let p5 := p4.2.pop
  let p6 := p5.2.pop
  [p1.1, p2.1, p3.1, p4.1, p5.1, p6.1]

/-- The element types component A can store: `first.rs` declares
`struct Node { elem: i32, next: Link }`, fixing the element type to exactly
the 32-bit signed integers (embedded as `Int`); there is no type parameter. -/
def supportedElemTypes : Set Type :=
  {Int}

theorem dropStep_iterate_int (n : Nat) :
    ∀ l : Link, (linkElems l).length = n →
      dropStep^[n] l = Link.Empty ∧ ∀ k < n, dropStep^[k] l ≠ Link.Empty := by
  induction n with
  | zero =>
      intro l hl
      cases l with
      | Empty => exact ⟨rfl, fun k hk => absurd hk (Nat.not_lt_zero k)⟩
      | More node =>
          cases node with
          | mk e rest => simp [linkElems] at hl
  | succ n ih =>
      intro l hl
      cases l with
      | Empty => simp [linkElems] at hl
      | More node =>
          cases node with
          | mk e rest =>
              have hrest : (linkElems rest).length = n := by
                simpa [linkElems] using hl
              obtain ⟨h1, h2⟩ := ih rest hrest
              refine ⟨?_, ?_⟩
              · rw [Function.iterate_succ_apply]
                exact h1
              · intro k hk
                cases k with
                | zero => simp [dropStep]
                | succ k =>
                    rw [Function.iterate_succ_apply]
                    exact h2 k (Nat.lt_of_succ_lt_succ hk)

end First

namespace Second

/-- Mirrors `second.rs`: `struct Node<T> { elem: T, next: Link<T> }` with
`type Link<T> = Option<Box<Node<T>>>` (the `Box` is transparent here). -/
inductive Node (T : Type) : Type where
  | mk : T → Option (Node T) → Node T

/-- Field accessor for `Node.elem`. -/
def Node.elem {T : Type} : Node T → T
  | .mk e _ => e

/-- Field accessor for `Node.next`. -/
def Node.next {T : Type} : Node T → Option (Node T)
  | .mk _ n => n

/-- Mirrors `second.rs`: `pub struct List<T> { head: Link<T> }`. -/
structure List (T : Type) : Type where
  head : Option (Node T)

variable {T : Type}

/-- Mirrors `List::new`. -/
def List.new : List T :=
  { head := none }

/-- Mirrors `List::push`: `self.head.take()` feeds the old head into the new
node's `next`, and the boxed new node becomes the head. -/
def List.push (l : List T) (elem : T) : List T :=
  { head := some (Node.mk elem l.head) }

/-- Mirrors `List::pop`: `self.head.take().map(|node| { self.head = node.next; node.elem })`. -/
def List.pop (l : List T) : Option T × List T :=
  match l.head with
  | none => (none, { head := none })
  | some node => (some node.elem, { head := node.next })

/-- Mirrors `List::peek`: `self.head.as_ref().map(|node| &node.elem)`; the
borrowed element is embedded by value. -/
def List.peek (l : List T) : Option T :=
  l.head.map Node.elem

/-- Mirrors `List::peek_mut` as a state-passing pair: the element the
returned `&mut T` refers to, together with the receiver after the call. The
body `self.head.as_mut().map(|node| &mut node.elem)` reassigns nothing, so
the receiver comes back unchanged. -/
def List.peek_mut (l : List T) : Option T × List T :=
  (l.head.map Node.elem, l)

/-- The effect of the caller writing `v` through the `&mut T` returned by
`peek_mut` (as in the repository's test `list.peek_mut().map(|value| *value = 42)`):
when the list is non-empty the head element is replaced by `v`, the rest of
the chain untouched; when empty, `peek_mut` returned `None` and nothing is
written. -/
def List.writePeekMut (l : List T) (v : T) : List T :=
  match l.head with
  | none => l
  | some node => { head := some (Node.mk v node.next) }

/-- The elements stored along a node chain, head first. -/
def nodeElems {T : Type} : Option (Node T) → LList T
  | none => []
  | some (.mk e rest) => e :: nodeElems rest

/-- The elements of a `second.rs` list, head first. -/
def List.elems (l : List T) : LList T :=
  nodeElems l.head

/-- The number of elements of a `second.rs` list. -/
def List.len (l : List T) : Nat :=
  (l.elems).length

/-- The list state after one `pop` call (result discarded). -/
def List.popAdv (l : List T) : List T :=
  (l.pop).2

/-- The value returned by the `(n+1)`-st `pop` in a run of repeated pops. -/
def List.popOut (l : List T) (n : Nat) : Option T :=
  ((List.popAdv^[n] l).pop).1

/-- Pushing each element of `xs` in order. -/
def List.pushAll (l : List T) (xs : LList T) : List T :=
  xs.foldl List.push l

/-- Mirrors `second.rs`: `pub struct IntoIter<T>(List<T>)`. -/
structure IntoIter (T : Type) : Type where
  list : List T

/-- Mirrors `List::into_iter`: wraps the list by value. -/
def List.into_iter (l : List T) : IntoIter T :=
  { list := l }

/-- Mirrors `IntoIter::next`: `self.0.pop()`. -/
def intoIterNext (it : IntoIter T) : Option T × IntoIter T :=
  ((it.list.pop).1, { list := (it.list.pop).2 })

/-- Mirrors `second.rs`: `pub struct Iter<'a, T> { next: Option<&'a Node<T>> }`;
the borrowed node is embedded by value. -/
structure Iter (T : Type) : Type where
  next : Option (Node T)

/-- Mirrors `List::iter`: cursor starts at `self.head.as_deref()`. -/
def List.iter (l : List T) : Iter T :=
  { next := l.head }

/-- Mirrors `Iter::next`: on `Some(node)` yield `&node.elem` and advance the
cursor to `node.next.as_deref()`; on `None` yield `None`, cursor unchanged. -/
def iterNext : Iter T → Option T × Iter T
  | { next := none } => (none, { next := none })
  | { next := some node } => (some node.elem, { next := node.next })

/-- Mirrors `second.rs`: `pub struct IterMut<'a, T> { next: Option<&'a mut Node<T>> }`. -/
structure IterMut (T : Type) : Type where
  next : Option (Node T)

/-- Mirrors `List::iter_mut`: cursor starts at `self.head.as_deref_mut()`. -/
def List.iter_mut (l : List T) : IterMut T :=
  { next := l.head }

/-- Mirrors `IterMut::next`: `self.next.take().map(|node| { self.next = node.next.as_deref_mut(); &mut node.elem })`. -/
def iterMutNext : IterMut T → Option T × IterMut T
  | { next := none } => (none, { next := none })
  | { next := some node } => (some node.elem, { next := node.next })

/-- Cursor state after one `Iter::next` call. -/
def iterAdv (it : Iter T) : Iter T :=
  (iterNext it).2

/-- Value returned by the `(n+1)`-st `Iter::next` call. -/
def iterOut (it : Iter T) (n : Nat) : Option T :=
  (iterNext (iterAdv^[n] it)).1

/-- Cursor state after one `IterMut::next` call. -/
def iterMutAdv (it : IterMut T) : IterMut T :=
  (iterMutNext it).2

/-- Value returned by the `(n+1)`-st `IterMut::next` call. -/
def iterMutOut (it : IterMut T) (n : Nat) : Option T :=
  (iterMutNext (iterMutAdv^[n] it)).1

/-- Iterator state after one `IntoIter::next` call. -/
def intoIterAdv (it : IntoIter T) : IntoIter T :=
  (intoIterNext it).2

/-- Value returned by the `(n+1)`-st `IntoIter::next` call. -/
def intoIterOut (it : IntoIter T) (n : Nat) : Option T :=
  (intoIterNext (intoIterAdv^[n] it)).1

/-- One iteration of the `Drop` loop of `second.rs`: `current_link = boxed_node.next.take()`;
`none` means the loop has exited. -/
def dropStep : Option (Node T) → Option (Node T)
  | none => none
  | some node => node.next

theorem elems_push (l : List T) (x : T) :
    (l.push x).elems = x :: l.elems := by
  simp [List.elems, List.push, nodeElems]

theorem elems_pushAll (xs : LList T) :
    ∀ l : List T, (l.pushAll xs).elems = xs.reverse ++ l.elems := by
  induction xs with
  | nil => intro l; rfl
  | cons x xs ih =>
      intro l
      show ((l.push x).pushAll xs).elems = (x :: xs).reverse ++ l.elems
      rw [ih (l.push x), elems_push]
      simp

theorem popOut_eq_elems_get (n : Nat) :
    ∀ l : List T, l.popOut n = l.elems[n]? := by
  induction n with
  | zero =>
      intro l
      cases l with
      | mk head =>
        cases head with
        | none => simp [List.popOut, List.pop, List.elems, nodeElems]
        | some node =>
            cases node with
            | mk e rest =>
                simp [List.popOut, List.pop, List.elems, nodeElems, Node.elem]
  | succ n ih =>
      intro l
      have h : l.popOut (n + 1) = (l.popAdv).popOut n := by
        simp [List.popOut, Function.iterate_succ_apply]
      rw [h, ih]
      cases l with
      | mk head =>
        cases head with
        | none => simp [List.popAdv, List.pop, List.elems, nodeElems]
        | some node =>
            cases node with
            | mk e rest =>
                simp [List.popAdv, List.pop, List.elems, nodeElems, Node.next]

theorem iterOut_eq_elems_get (n : Nat) :
    ∀ o : Option (Node T), iterOut { next := o } n = (nodeElems o)[n]? := by
  induction n with
  | zero =>
      intro o
      cases o with
      | none => simp [iterOut, iterNext, nodeElems]
      | some node =>
          cases node with
          | mk e rest => simp [iterOut, iterNext, nodeElems, Node.elem]
  | succ n ih =>
      intro o
      have h : iterOut { next := o } (n + 1) = iterOut (iterAdv { next := o }) n := by
        simp [iterOut, Function.iterate_succ_apply]
      cases o with
      | none =>
          rw [h]
          simpa [iterAdv, iterNext, nodeElems] using ih none
      | some node =>
          cases node with
          | mk e rest =>
              rw [h]
              simpa [iterAdv, iterNext, nodeElems, Node.next] using ih rest

theorem iterMutOut_eq_elems_get (n : Nat) :
    ∀ o : Option (Node T), iterMutOut { next := o } n = (nodeElems o)[n]? := by
  induction n with
  | zero =>
      intro o
      cases o with
      | none => simp [iterMutOut, iterMutNext, nodeElems]
      | some node =>
          cases node with
          | mk e rest => simp [iterMutOut, iterMutNext, nodeElems, Node.elem]
  | succ n ih =>
      intro o
      have h : iterMutOut { next := o } (n + 1) =
          iterMutOut (iterMutAdv { next := o }) n := by
        simp [iterMutOut, Function.iterate_succ_apply]
      cases o with
      | none =>
          rw [h]
          simpa [iterMutAdv, iterMutNext, nodeElems] using ih none
      | some node =>
          cases node with
          | mk e rest =>
              rw [h]
              simpa [iterMutAdv, iterMutNext, nodeElems, Node.next] using ih rest

theorem intoIterOut_eq_elems_get (n : Nat) :
    ∀ l : List T, intoIterOut l.into_iter n = l.elems[n]? := by
  induction n with
  | zero =>
      intro l
      cases l with
      | mk head =>
        cases head with
        | none => simp [intoIterOut, intoIterNext, List.into_iter, List.pop, List.elems, nodeElems]
        | some node =>
            cases node with
            | mk e rest =>
                simp [intoIterOut, intoIterNext, List.into_iter, List.pop,
                  List.elems, nodeElems, Node.elem]
  | succ n ih =>
      intro l
      have h : intoIterOut l.into_iter (n + 1) =
          intoIterOut (intoIterAdv l.into_iter) n := by
        simp [intoIterOut, Function.iterate_succ_apply]
      cases l with
      | mk head =>
        cases head with
        | none =>
            rw [h]
            simpa [intoIterAdv, intoIterNext, List.into_iter, List.pop, List.elems,
              nodeElems] using ih { head := none }
        | some node =>
            cases node with
            | mk e rest =>
                rw [h]
                simpa [intoIterAdv, intoIterNext, List.into_iter, List.pop, List.elems,
                  nodeElems, Node.next] using ih { head := rest }

theorem dropStep_iterate {T : Type} (n : Nat) :
    ∀ o : Option (Node T), (nodeElems o).length = n →
      dropStep^[n] o = none ∧ ∀ k < n, dropStep^[k] o ≠ none := by
  induction n with
  | zero =>
      intro o hl
      cases o with
      | none => exact ⟨rfl, fun k hk => absurd hk (Nat.not_lt_zero k)⟩
      | some node =>
          cases node with
          | mk e rest => simp [nodeElems] at hl
  | succ n ih =>
      intro o hl
      cases o with
      | none => simp [nodeElems] at hl
      | some node =>
          cases node with
          | mk e rest =>
              have hrest : (nodeElems rest).length = n := by
                simpa [nodeElems] using hl
              obtain ⟨h1, h2⟩ := ih rest hrest
              refine ⟨?_, ?_⟩
              · rw [Function.iterate_succ_apply]
                exact h1
              · intro k hk
                cases k with
                | zero => simp
                | succ k =>
                    rw [Function.iterate_succ_apply]
                    exact h2 k (Nat.lt_of_succ_lt_succ hk)

end Second

namespace Third

/-- Mirrors `third.rs`: `struct Node<T> { elem: T, next: Link<T> }` with
`type Link<T> = Option<Rc<Node<T>>>`; the `Rc` is embedded by value, so
`Rc::clone` (a reference-count increment) is value sharing. -/
inductive Node (T : Type) : Type where
  | mk : T → Option (Node T) → Node T

/-- Field accessor for `Node.elem`. -/
def Node.elem {T : Type} : Node T → T
  | .mk e _ => e

/-- Field accessor for `Node.next`. -/
def Node.next {T : Type} : Node T → Option (Node T)
  | .mk _ n => n

/-- Mirrors `third.rs`: `pub struct List<T> { head: Link<T> }`. -/
structure List (T : Type) : Type where
  head : Option (Node T)

variable {T : Type}

/-- Mirrors `List::new`. -/
def List.new : List T :=
  { head := none }

/-- Mirrors `List::prepend`: builds a fresh `Rc` node holding `elem` and
`self.head.clone()`, and returns a new list headed by it; the receiver is
taken by `&self` and left untouched. -/
def List.prepend (l : List T) (elem : T) : List T :=
  { head := some (Node.mk elem l.head) }

/-- Mirrors `List::tail`: `self.head.as_ref().and_then(|node| node.next.clone())`. -/
def List.tail (l : List T) : List T :=
  { head := l.head.bind Node.next }

/-- Mirrors `List::head`: `self.head.as_ref().map(|node| &node.elem)`; named
`head?` in Lean because the structure field is already called `head`. -/
def List.head? (l : List T) : Option T :=
  l.head.map Node.elem

/-- The elements stored along a node chain, head first. -/
def nodeElems {T : Type} : Option (Node T) → LList T
  | none => []
  | some (.mk e rest) => e :: nodeElems rest

/-- The elements of a `third.rs` list, head first. -/
def List.elems (l : List T) : LList T :=
  nodeElems l.head

/-- Mirrors `third.rs`: `pub struct Iter<'a, T> { next: Option<&'a Node<T>> }`. -/
structure Iter (T : Type) : Type where
  next : Option (Node T)

/-- Mirrors `List::iter`: cursor starts at `self.head.as_deref()`. -/
def List.iter (l : List T) : Iter T :=
  { next := l.head }

/-- Mirrors `third.rs`'s `Iter::next`. -/
def iterNext : Iter T → Option T × Iter T
  | { next := none } => (none, { next := none })
  | { next := some node } => (some node.elem, { next := node.next })

/-- Cursor state after one `Iter::next` call. -/
def iterAdv (it : Iter T) : Iter T :=
  (iterNext it).2

/-- Value returned by the `(n+1)`-st `Iter::next` call. -/
def iterOut (it : Iter T) (n : Nat) : Option T :=
  (iterNext (iterAdv^[n] it)).1

/-- One iteration of the `Drop` loop of `third.rs`. The parameter `coOwned`
models the outcome of `Rc::try_unwrap` on each node: `true` means the strong
count exceeds one, `try_unwrap` returns `Err` and the loop breaks (embedded
as reaching the terminal state `none`); `false` means the node is reclaimed
and the walk continues into `node.next.take()`. -/
def dropStep (coOwned : Node T → Bool) : Option (Node T) → Option (Node T)
  | none => none
  | some node => if coOwned node then none else node.next

/-- An operation of the persistent-list API that returns a derived list. -/
inductive POp (T : Type) : Type where
  | prepend : T → POp T
  | tail : POp T

/-- Running one API call on a list value. -/
def runPOp (l : List T) : POp T → List T
  | .prepend x => l.prepend x
  | .tail => l.tail

/-- Running a sequence of API calls, each on the previous result. -/
def runPOps (l : List T) (ops : LList (POp T)) : List T :=
  ops.foldl runPOp l

/-- Modelled from the spec: the intended meaning of a `prepend`/`tail` call
on the element sequence — `prepend` adds at the front, `tail` is everything
after the first element (the empty sequence stays empty). -/
def modelPOp (xs : LList T) : POp T → LList T
  | .prepend x => x :: xs
  | .tail => xs.drop 1

/-- Modelled from the spec: meaning of a call sequence. -/
def modelPOps (xs : LList T) (ops : LList (POp T)) : LList T :=
  ops.foldl modelPOp xs

theorem elems_prepend (l : List T) (x : T) :
    (l.prepend x).elems = x :: l.elems := by
  simp [List.elems, List.prepend, nodeElems]

theorem elems_tail (l : List T) :
    (l.tail).elems = (l.elems).drop 1 := by
  cases l with
  | mk head =>
    cases head with
    | none => simp [List.tail, List.elems, nodeElems]
    | some node =>
        cases node with
        | mk e rest => simp [List.tail, List.elems, nodeElems, Node.next]

theorem elems_runPOps (ops : LList (POp T)) :
    ∀ l : List T, (runPOps l ops).elems = modelPOps l.elems ops := by
  induction ops with
  | nil => intro l; rfl
  | cons op ops ih =>
      intro l
      show (runPOps (runPOp l op) ops).elems = modelPOps (modelPOp l.elems op) ops
      rw [ih (runPOp l op)]
      cases op with
      | prepend x => rw [runPOp, modelPOp, elems_prepend]
      | tail => rw [runPOp, modelPOp, elems_tail]

theorem iterOut_eq_elems_get_rc (n : Nat) :
    ∀ o : Option (Node T), iterOut { next := o } n = (nodeElems o)[n]? := by
  induction n with
  | zero =>
      intro o
      cases o with
      | none => simp [iterOut, iterNext, nodeElems]
      | some node =>
          cases node with
          | mk e rest => simp [iterOut, iterNext, nodeElems, Node.elem]
  | succ n ih =>
      intro o
      have h : iterOut { next := o } (n + 1) = iterOut (iterAdv { next := o }) n := by
        simp [iterOut, Function.iterate_succ_apply]
      cases o with
      | none =>
          rw [h]
          simpa [iterAdv, iterNext, nodeElems] using ih none
      | some node =>
          cases node with
          | mk e rest =>
              rw [h]
              simpa [iterAdv, iterNext, nodeElems, Node.next] using ih rest

theorem dropStep_iterate_rc {T : Type} (coOwned : Node T → Bool) (n : Nat) :
    ∀ o : Option (Node T), (nodeElems o).length = n →
      (dropStep coOwned)^[n] o = none := by
  induction n with
  | zero =>
      intro o hl
      cases o with
      | none => rfl
      | some node =>
          cases node with
          | mk e rest => simp [nodeElems] at hl
  | succ n ih =>
      intro o hl
      cases o with
      | none => simp [nodeElems] at hl
      | some node =>
          cases node with
          | mk e rest =>
              have hrest : (nodeElems rest).length = n := by
                simpa [nodeElems] using hl
              rw [Function.iterate_succ_apply]
              cases hco : coOwned (Node.mk e rest) with
              | true =>
                  have hstep : dropStep coOwned (some (Node.mk e rest)) = none := by
                    simp [dropStep, hco]
                  rw [hstep]
                  exact Function.iterate_fixed rfl n
              | false =>
                  have hstep : dropStep coOwned (some (Node.mk e rest)) = rest := by
                    simp [dropStep, hco, Node.next]
                  rw [hstep]
                  exact ih rest hrest

end Third

namespace Fifth

/-- Mirrors `fifth.rs`: `struct Node<T> { elem: T, next: Link<T> }` with
`type Link<T> = *mut Node<T>`; a raw pointer is embedded as an `Option Nat`
heap address, `none` standing for `ptr::null_mut()`. -/
structure Node (T : Type) : Type where
  elem : T
  next : Option Nat

/-- Mirrors `fifth.rs`: `pub struct List<T> { head: Link<T>, tail: *mut Node<T> }`,
extended with an explicit model of the allocator: `heap` maps live addresses
to nodes (`Box::into_raw` inserts, `Box::from_raw` plus drop removes) and
`alloc` is a bump counter supplying fresh addresses. -/
structure List (T : Type) : Type where
  heap : Nat → Option (Node T)
  alloc : Nat
  head : Option Nat
  tail : Option Nat

variable {T : Type}

/-- Heap update at a single address. -/
def hUpdate (h : Nat → Option (Node T)) (a : Nat) (v : Option (Node T)) :
    Nat → Option (Node T) :=
  fun a' => if a' = a then v else h a'

/-- Mirrors `List::new`: head and tail both null, empty heap. -/
def List.new : List T :=
  { heap := fun _ => none, alloc := 0, head := none, tail := none }

/-- Mirrors `List::push`: allocate a node with null `next`
(`Box::into_raw(Box::new(Node { elem, next: ptr::null_mut() }))`); if
`self.tail` is non-null, set `(*self.tail).next` to the new address,
otherwise the new node becomes `head`; the new node unconditionally becomes
`tail`. Writing through a dangling `tail` (an address absent from the heap)
is undefined behaviour in the source; the embedding leaves an absent
address absent. -/
def List.push (s : List T) (elem : T) : List T :=
  let p := s.alloc
  let h1 := hUpdate s.heap p (some { elem := elem, next := none })
  match s.tail with
  | some t =>
      { heap := hUpdate h1 t ((h1 t).map fun n => { n with next := some p }),
        alloc := p + 1, head := s.head, tail := some p }
  | none =>
      { heap := h1, alloc := p + 1, head := some p, tail := some p }

/-- Mirrors `List::pop`: if `head` is null return `None`; otherwise
`Box::from_raw(self.head)` takes the head node back (removed from the heap,
freed at scope end), `head` becomes its `next`, and if the new `head` is
null `tail` is reset to null. Reading through a dangling `head` is undefined
behaviour in the source; the embedding returns `None` there (such states are
unreachable from `new`). -/
def List.pop (s : List T) : Option T × List T :=
  match s.head with
  | none => (none, s)
  | some a =>
      match s.heap a with
      | none => (none, s)
      | some node =>
          (some node.elem,
            { heap := hUpdate s.heap a none, alloc := s.alloc,
              head := node.next,
              tail := if node.next = none then none else s.tail })

/-- The list state after one `pop` call (result discarded). -/
def List.popAdv (s : List T) : List T :=
  (s.pop).2

/-- The value returned by the `(n+1)`-st `pop` in a run of repeated pops. -/
def List.popOut (s : List T) (n : Nat) : Option T :=
  ((List.popAdv^[n] s).pop).1

/-- Pushing each element of `xs` in order. -/
def List.pushAll (s : List T) (xs : LList T) : List T :=
  xs.foldl List.push s

/-- Predicate stating that starting at pointer `p` and following `next`
links through heap `h` visits exactly the address/element pairs of `l`, in
order, ending at a null link. -/
def chain (h : Nat → Option (Node T)) : Option Nat → LList (Nat × T) → Prop
  | p, [] => p = none
  | p, (a, e) :: rest =>
      ∃ nxt, p = some a ∧ h a = some { elem := e, next := nxt } ∧ chain h nxt rest

/-- Representation invariant of `fifth.rs` relating a state to its logical
content `l`: the chain from `head` is exactly `l`; `tail` is the address of
the last chain node (null when empty); chain addresses are pairwise
distinct and below the allocation counter; the chain is no longer than the
counter. -/
def Rep (s : List T) (l : LList (Nat × T)) : Prop :=
  chain s.heap s.head l ∧
  s.tail = (l.map Prod.fst).getLast? ∧
  (l.map Prod.fst).Nodup ∧
  (∀ a ∈ l.map Prod.fst, a < s.alloc) ∧
  l.length ≤ s.alloc

/-- The tail-pointer safety invariant of the queue, stated directly on a
state: `tail` is null exactly when `head` is; and a non-null `tail`
addresses a node lying on the chain reachable from `head`, and among the
chain's nodes exactly the one at `tail` has an absent successor link. -/
def tailInv (s : List T) : Prop :=
  (s.tail = none ↔ s.head = none) ∧
  ∀ t, s.tail = some t → ∃ l : LList (Nat × T),
    chain s.heap s.head l ∧
    t ∈ l.map Prod.fst ∧
    ∀ ae ∈ l, ∀ node : Node T, s.heap ae.1 = some node → (node.next = none ↔ ae.1 = t)

/-- A queue API call. -/
inductive QOp (T : Type) : Type where
  | push : T → QOp T
  | pop : QOp T

/-- Running one API call on a state. -/
def runQOp (s : List T) : QOp T → List T
  | .push x => s.push x
  | .pop => (s.pop).2

/-- Running a call sequence from a state. -/
def runQOps (s : List T) (ops : LList (QOp T)) : List T :=
  ops.foldl runQOp s

/-- Fuel-bounded walk of the chain from a pointer, collecting elements; with
fuel at least the chain length it returns the whole logical content. -/
def chainElems (h : Nat → Option (Node T)) : Nat → Option Nat → LList T
  | 0, _ => []
  | _ + 1, none => []
  | fuel + 1, some a =>
      match h a with
      | none => []
      | some node => node.elem :: chainElems h fuel node.next

/-- The elements of a `fifth.rs` list, head first (fuelled by `alloc`,
which bounds the chain length in every reachable state). -/
def List.qElems (s : List T) : LList T :=
  chainElems s.heap s.alloc s.head

theorem chain_agree (h h' : Nat → Option (Node T)) :
    ∀ (l : LList (Nat × T)) (p : Option Nat), chain h p l →
      (∀ a ∈ l.map Prod.fst, h' a = h a) → chain h' p l := by
  intro l
  induction l with
  | nil => intro p hc _; exact hc
  | cons ae rest ih =>
      obtain ⟨a, e⟩ := ae
      intro p hc hag
      obtain ⟨nxt, hp, ha, hrest⟩ := hc
      refine ⟨nxt, hp, ?_, ih nxt hrest fun b hb => hag b (by simp [hb])⟩
      rw [hag a (by simp)]
      exact ha

theorem chain_snoc (x : T) (p : Nat) :
    ∀ (l : LList (Nat × T)) (h : Nat → Option (Node T)) (p0 : Option Nat) (t : Nat),
      chain h p0 l →
      (∀ a ∈ l.map Prod.fst, a < p) →
      (l.map Prod.fst).Nodup →
      (l.map Prod.fst).getLast? = some t →
      chain
        (hUpdate (hUpdate h p (some { elem := x, next := none })) t
          (((hUpdate h p (some { elem := x, next := none })) t).map
            fun n => { n with next := some p }))
        p0 (l ++ [(p, x)]) := by
  intro l
  induction l with
  | nil =>
      intro h p0 t _ _ _ hlast
      simp at hlast
  | cons ae rest ih =>
      obtain ⟨a, e⟩ := ae
      intro h p0 t hc hbound hnd hlast
      obtain ⟨nxt, hp, ha, hrest⟩ := hc
      have hap : a < p := hbound a (by simp)
      have hanep : a ≠ p := Nat.ne_of_lt hap
      cases rest with
      | nil =>
          have ht : t = a := by
            simp [List.getLast?] at hlast
            omega
          have hnxt : nxt = none := hrest
          subst ht
          subst hnxt
          refine ⟨some p, hp, ?_, none, rfl, ?_, rfl⟩
          · simp [hUpdate, hanep, ha]
          · have hpt : p ≠ t := fun hpt => hanep hpt.symm
            simp [hUpdate, hpt]
      | cons r1 r2 =>
          have hnd' : (a :: (r1 :: r2).map Prod.fst).Nodup := by
            rw [List.map_cons] at hnd; exact hnd
          have hlast' : ((r1 :: r2).map Prod.fst).getLast? = some t := by
            rw [List.map_cons, List.map_cons, List.getLast?_cons_cons] at hlast
            rw [List.map_cons]
            exact hlast
          have hat : a ≠ t := by
            intro hat
            have htmem : t ∈ (r1 :: r2).map Prod.fst :=
              List.mem_of_getLast?_eq_some hlast'
            exact (List.nodup_cons.mp hnd').1 (hat ▸ htmem)
          refine ⟨nxt, hp, ?_, ?_⟩
          · simp [hUpdate, hat, hanep, ha]
          · exact ih h nxt t hrest
              (fun b hb => hbound b (by simp at hb ⊢; exact Or.inr hb))
              ((List.nodup_cons.mp hnd').2)
              hlast'

theorem rep_new : Rep (List.new : List T) [] := by
  refine ⟨rfl, rfl, List.nodup_nil, ?_, ?_⟩ <;> simp

theorem rep_push {s : List T} {l : LList (Nat × T)} (x : T) (hrep : Rep s l) :
    Rep (s.push x) (l ++ [(s.alloc, x)]) := by
  obtain ⟨hc, htail, hnd, hb, hlen⟩ := hrep
  cases l with
  | nil =>
      have hhead : s.head = none := hc
      have ht : s.tail = none := by simpa using htail
      refine ⟨?_, ?_, ?_, ?_, ?_⟩
      · show chain (s.push x).heap (s.push x).head [(s.alloc, x)]
        simp only [List.push, ht, hhead]
        exact ⟨none, rfl, by simp [hUpdate], rfl⟩
      · simp [List.push, ht]
      · simp
      · intro a ha
        simp at ha
        simp [List.push, ht, ha]
      · simp [List.push, ht]
  | cons ae rest =>
      obtain ⟨t, ht⟩ : ∃ t, ((ae :: rest).map Prod.fst).getLast? = some t :=
        Option.isSome_iff_exists.mp (List.getLast?_isSome.mpr (by simp))
      have htl : s.tail = some t := htail.trans ht
      refine ⟨?_, ?_, ?_, ?_, ?_⟩
      · show chain (s.push x).heap (s.push x).head ((ae :: rest) ++ [(s.alloc, x)])
        simp only [List.push, htl]
        exact chain_snoc x s.alloc (ae :: rest) s.heap s.head t hc hb hnd ht
      · have h1 : (s.push x).tail = some s.alloc := by simp [List.push, htl]
        rw [h1, List.map_append]
        exact (List.getLast?_concat _).symm
      · rw [List.map_append, List.nodup_append]
        refine ⟨hnd, by simp, ?_⟩
        intro a ha hmem
        have h1 := hb a ha
        have h2 : a = s.alloc := by simpa using hmem
        omega
      · intro a ha
        have h2 : (s.push x).alloc = s.alloc + 1 := by simp [List.push, htl]
        rw [List.map_append] at ha
        rcases List.mem_append.mp ha with ha | ha
        · have := hb a ha
          omega
        · have : a = s.alloc := by simpa using ha
          omega
      · have h2 : (s.push x).alloc = s.alloc + 1 := by simp [List.push, htl]
        have h3 : ((ae :: rest) ++ [(s.alloc, x)]).length = (ae :: rest).length + 1 := by
          simp
        omega

theorem rep_pop_cons {s : List T} {a : Nat} {e : T} {rest : LList (Nat × T)}
    (hrep : Rep s ((a, e) :: rest)) :
    (s.pop).1 = some e ∧ Rep (s.pop).2 rest := by
  obtain ⟨hc, htail, hnd, hb, hlen⟩ := hrep
  obtain ⟨nxt, hp, ha, hrest⟩ := hc
  have hnd' : (a :: rest.map Prod.fst).Nodup := by
    rw [List.map_cons] at hnd; exact hnd
  have hnotin : a ∉ rest.map Prod.fst := (List.nodup_cons.mp hnd').1
  have hpop : s.pop =
      (some e,
        { heap := hUpdate s.heap a none, alloc := s.alloc, head := nxt,
          tail := if nxt = none then none else s.tail }) := by
    simp [List.pop, hp, ha]
  rw [hpop]
  refine ⟨rfl, ?_, ?_, ?_, ?_, ?_⟩
  · exact chain_agree s.heap _ rest nxt hrest fun b hb' => by
      have : b ≠ a := fun hba => hnotin (hba ▸ hb')
      simp [hUpdate, this]
  · cases nxt with
    | none =>
        have hrnil : rest = [] := by
          cases rest with
          | nil => rfl
          | cons r rr =>
              obtain ⟨_, habs, _⟩ := hrest
              exact absurd habs (by simp)
        subst hrnil
        rfl
    | some b =>
        cases rest with
        | nil => exact absurd hrest (by simp [chain])
        | cons r rr =>
            show s.tail = ((r :: rr).map Prod.fst).getLast?
            rw [htail, List.map_cons, List.map_cons, List.getLast?_cons_cons]
  · exact (List.nodup_cons.mp hnd').2
  · intro b hb'
    exact hb b (by rw [List.map_cons]; exact List.mem_cons_of_mem a hb')
  · exact Nat.le_of_succ_le hlen

theorem rep_pop_nil {s : List T} (hrep : Rep s []) : s.pop = (none, s) := by
  obtain ⟨hc, _, _, _, _⟩ := hrep
  have hh : s.head = none := hc
  simp [List.pop, hh]

theorem rep_runQOps (ops : LList (QOp T)) :
    ∀ (s : List T) (l : LList (Nat × T)), Rep s l →
      ∃ l', Rep (runQOps s ops) l' := by
  induction ops with
  | nil => intro s l h; exact ⟨l, h⟩
  | cons op ops ih =>
      intro s l h
      show ∃ l', Rep (runQOps (runQOp s op) ops) l'
      cases op with
      | push x => exact ih _ _ (rep_push x h)
      | pop =>
          cases l with
          | nil =>
              have h2 : runQOp s QOp.pop = s := by simp [runQOp, rep_pop_nil h]
              exact ih _ _ (by rw [h2]; exact h)
          | cons ae rest =>
              obtain ⟨a, e⟩ := ae
              exact ih _ _ (rep_pop_cons h).2

theorem popOut_of_rep (n : Nat) :
    ∀ (s : List T) (l : LList (Nat × T)), Rep s l →
      s.popOut n = (l.map Prod.snd)[n]? := by
  induction n with
  | zero =>
      intro s l h
      cases l with
      | nil => simp [List.popOut, rep_pop_nil h]
      | cons ae rest =>
          obtain ⟨a, e⟩ := ae
          have h1 := (rep_pop_cons h).1
          simp [List.popOut, h1]
  | succ n ih =>
      intro s l h
      have hstep : s.popOut (n + 1) = (s.popAdv).popOut n := by
        simp [List.popOut, Function.iterate_succ_apply]
      rw [hstep]
      cases l with
      | nil =>
          have hadv : s.popAdv = s := by simp [List.popAdv, rep_pop_nil h]
          rw [hadv, ih s [] h]
          simp
      | cons ae rest =>
          obtain ⟨a, e⟩ := ae
          rw [ih (s.popAdv) rest (rep_pop_cons h).2]
          simp

theorem rep_pushAll (xs : LList T) :
    ∀ (s : List T) (l : LList (Nat × T)), Rep s l →
      ∃ l', Rep (s.pushAll xs) l' ∧ l'.map Prod.snd = l.map Prod.snd ++ xs := by
  induction xs with
  | nil => intro s l h; exact ⟨l, h, by simp⟩
  | cons x xs ih =>
      intro s l h
      obtain ⟨l', hrep, hmap⟩ := ih (s.push x) (l ++ [(s.alloc, x)]) (rep_push x h)
      refine ⟨l', hrep, ?_⟩
      rw [hmap]
      simp

theorem chainElems_of_chain :
    ∀ (l : LList (Nat × T)) (h : Nat → Option (Node T)) (p : Option Nat) (fuel : Nat),
      chain h p l → l.length ≤ fuel → chainElems h fuel p = l.map Prod.snd := by
  intro l
  induction l with
  | nil =>
      intro h p fuel hc _
      have hp : p = none := hc
      subst hp
      cases fuel <;> rfl
  | cons ae rest ih =>
      obtain ⟨a, e⟩ := ae
      intro h p fuel hc hlen
      obtain ⟨nxt, hp, ha, hrest⟩ := hc
      subst hp
      cases fuel with
      | zero => simp at hlen
      | succ fuel =>
          show chainElems h (fuel + 1) (some a) = e :: rest.map Prod.snd
          rw [chainElems, ha]
          simp only [List.map_cons]
          exact congrArg (e :: ·) (ih h nxt fuel hrest (Nat.le_of_succ_le_succ hlen))

theorem qElems_of_rep {s : List T} {l : LList (Nat × T)} (hrep : Rep s l) :
    s.qElems = l.map Prod.snd := by
  obtain ⟨hc, _, _, _, hlen⟩ := hrep
  exact chainElems_of_chain l s.heap s.head s.alloc hc hlen

theorem popAdv_iter_of_rep :
    ∀ (l : LList (Nat × T)) (s : List T), Rep s l →
      ((List.popAdv)^[l.length] s).head = none ∧
        ∀ k < l.length, ((List.popAdv)^[k] s).head ≠ none := by
  intro l
  induction l with
  | nil =>
      intro s h
      obtain ⟨hc, _, _, _, _⟩ := h
      exact ⟨hc, fun k hk => absurd hk (Nat.not_lt_zero k)⟩
  | cons ae rest ih =>
      obtain ⟨a, e⟩ := ae
      intro s h
      have hhead : s.head = some a := by
        obtain ⟨hc, _, _, _, _⟩ := h
        obtain ⟨nxt, hp, _, _⟩ := hc
        exact hp
      have hrep' := (rep_pop_cons h).2
      constructor
      · rw [List.length_cons, Function.iterate_succ_apply]
        exact (ih (s.popAdv) hrep').1
      · intro k hk
        cases k with
        | zero =>
            simp only [Function.iterate_zero_apply, hhead]
            simp
        | succ k =>
            rw [Function.iterate_succ_apply]
            exact (ih (s.popAdv) hrep').2 k
              (by simpa [List.length_cons] using Nat.lt_of_succ_lt_succ hk)

theorem chain_last_next (h : Nat → Option (Node T)) :
    ∀ (l : LList (Nat × T)) (p : Option Nat), chain h p l → (l.map Prod.fst).Nodup →
      ∀ (a : Nat) (e : T), (a, e) ∈ l → ∀ node : Node T, h a = some node →
        (node.next = none ↔ (l.map Prod.fst).getLast? = some a) := by
  intro l
  induction l with
  | nil => intro p _ _ a e hmem; simp at hmem
  | cons ae rest ih =>
      obtain ⟨a0, e0⟩ := ae
      intro p hc hnd a e hmem node hnode
      obtain ⟨nxt, hp, ha0, hrest⟩ := hc
      have hnd' : (a0 :: rest.map Prod.fst).Nodup := by
        rw [List.map_cons] at hnd; exact hnd
      rcases List.mem_cons.mp hmem with heq | hmem'
      · injection heq with h1 h2
        subst h1
        subst h2
        have hnode' : node = { elem := e, next := nxt } := by
          rw [ha0] at hnode
          exact (Option.some.inj hnode).symm
        subst hnode'
        constructor
        · intro hnone
          have hnxt2 : nxt = none := hnone
          have hrnil : rest = [] := by
            rw [hnxt2] at hrest
            cases rest with
            | nil => rfl
            | cons r rr =>
                obtain ⟨_, habs, _⟩ := hrest
                exact absurd habs (by simp)
          subst hrnil
          rfl
        · intro hlast
          cases rest with
          | nil => exact hrest
          | cons r rr =>
              have hlast' : ((r :: rr).map Prod.fst).getLast? = some a := by
                rw [List.map_cons, List.map_cons, List.getLast?_cons_cons] at hlast
                rw [List.map_cons]
                exact hlast
              have hamem : a ∈ (r :: rr).map Prod.fst :=
                List.mem_of_getLast?_eq_some hlast'
              exact absurd hamem (List.nodup_cons.mp hnd').1
      · have hrneq : rest ≠ [] := by
          intro hnil
          rw [hnil] at hmem'
          simp at hmem'
        have key := ih nxt hrest (List.nodup_cons.mp hnd').2 a e hmem' node hnode
        have hgl : ((a0, e0) :: rest).map Prod.fst = a0 :: rest.map Prod.fst := by
          rw [List.map_cons]
        rw [hgl]
        have hgl2 : (a0 :: rest.map Prod.fst).getLast? = (rest.map Prod.fst).getLast? := by
          cases rest with
          | nil => exact absurd rfl hrneq
          | cons r rr => rw [List.map_cons, List.getLast?_cons_cons]
        rw [hgl2]
        exact key

theorem rep_tailInv {s : List T} {l : LList (Nat × T)} (hrep : Rep s l) :
    tailInv s := by
  obtain ⟨hc, htail, hnd, hb, hlen⟩ := hrep
  constructor
  · constructor
    · intro htn
      rw [htail] at htn
      have h1 : l.map Prod.fst = [] := List.getLast?_eq_none_iff.mp htn
      have h2 : l = [] := by
        cases l with
        | nil => rfl
        | cons ae rest => simp at h1
      rw [h2] at hc
      exact hc
    · intro hhn
      cases l with
      | nil => exact htail.trans rfl
      | cons ae rest =>
          obtain ⟨a, e⟩ := ae
          obtain ⟨nxt, hp, _, _⟩ := hc
          rw [hhn] at hp
          exact absurd hp (by simp)
  · intro t ht
    refine ⟨l, hc, ?_, ?_⟩
    · rw [htail] at ht
      exact List.mem_of_getLast?_eq_some ht
    · intro ae hmem node hnode
      obtain ⟨a, e⟩ := ae
      have key := chain_last_next s.heap l s.head hc hnd a e hmem node hnode
      rw [htail] at ht
      constructor
      · intro hn
        have h1 := key.mp hn
        exact Option.some.inj (h1.symm.trans ht)
      · intro hat
        have hat' : a = t := hat
        exact key.mpr (by rw [hat']; exact ht)

theorem pop_none_iff_of_rep {s : List T} {l : LList (Nat × T)} (hrep : Rep s l) :
    (s.pop).1 = none ↔ s.head = none := by
  cases l with
  | nil =>
      have hpop := rep_pop_nil hrep
      obtain ⟨hc, _, _, _, _⟩ := hrep
      have hh : s.head = none := hc
      simp [hpop, hh]
  | cons ae rest =>
      obtain ⟨a, e⟩ := ae
      have h1 := (rep_pop_cons hrep).1
      have hh : s.head = some a := by
        obtain ⟨hc, _, _, _, _⟩ := hrep
        obtain ⟨nxt, hp, _, _⟩ := hc
        exact hp
      simp [h1, hh]

/-- The observable results of the `basics` test scenario of `fifth.rs`:
push 1, 2, 3; pop twice; push 4, 5; pop four times; push 6, 7; pop three
times; collect the nine pop results in order. -/
def basicsPops : LList (Option Int) :=
  let s := (List.new : List Int)
  let s := s.push 1
  let s := s.push 2
  let s := s.push 3
  let p1 := s.pop
  let p2 := p1.2.pop
  let s := p2.2.push 4
  let s := s.push 5
  let p3 := s.pop
  let p4 := p3.2.pop
  let p5 := p4.2.pop
  let p6 := p5.2.pop
  let s := p6.2.push 6
  let s := s.push 7
  let p7 := s.pop
  let p8 := p7.2.pop
  let p9 := p8.2.pop
  [p1.1, p2.1, p3.1, p4.1, p5.1, p6.1, p7.1, p8.1, p9.1]

end Fifth

/-- Claim C1: for every sequence of pushes followed by pops on the
exclusive-ownership stack (components A and B), pop returns the pushed
elements in exact reverse (LIFO) order — the `n`-th pop result equals the
`n`-th entry of the reversed push sequence, with `none` past exhaustion;
pop on the empty stack returns `none` and leaves the stack a valid empty
list, so a subsequent push behaves normally. -/
theorem claim_C1 :
    (∀ (xs : LList Int) (n : Nat),
        (First.List.new.pushAll xs).popOut n = xs.reverse[n]?) ∧
    First.List.new.pop = (none, First.List.new) ∧
    (∀ x : Int, (((First.List.new.pop).2).push x).pop = (some x, First.List.new)) ∧
    (∀ (T : Type) (xs : LList T) (n : Nat),
        ((Second.List.new : Second.List T).pushAll xs).popOut n = xs.reverse[n]?) ∧
    (∀ T : Type, (Second.List.new : Second.List T).pop = (none, Second.List.new)) ∧
    (∀ (T : Type) (x : T),
        ((((Second.List.new : Second.List T).pop).2).push x).pop
          = (some x, Second.List.new)) := by
  refine ⟨?_, rfl, fun x => rfl, ?_, fun T => rfl, fun T x => rfl⟩
  · intro xs n
    rw [First.popOut_eq_elems_get_int n, First.elems_pushAll_int xs First.List.new]
    have h : First.List.new.elems = [] := rfl
    rw [h, List.append_nil]
  · intro T xs n
    rw [Second.popOut_eq_elems_get n, Second.elems_pushAll xs Second.List.new]
    have h : (Second.List.new : Second.List T).elems = [] := by
      simp [Second.List.elems, Second.List.new, Second.nodeElems]
    rw [h, List.append_nil]

/-- Claim C2: on the queue (component D), pops return pushed elements in
push (FIFO) order — after pushing `xs` onto a fresh queue the `n`-th pop
returns the `n`-th element of `xs`, `none` past exhaustion — and the
concrete `basics` scenario of `fifth.rs` produces exactly
1, 2, 3, 4, 5, None, 6, 7, None. -/
theorem claim_C2 :
    (∀ (T : Type) (xs : LList T) (n : Nat),
        ((Fifth.List.new : Fifth.List T).pushAll xs).popOut n = xs[n]?) ∧
    Fifth.basicsPops
      = [some 1, some 2, some 3, some 4, some 5, none, some 6, some 7, none] := by
  constructor
  · intro T xs n
    obtain ⟨l', hrep, hmap⟩ := Fifth.rep_pushAll xs Fifth.List.new [] Fifth.rep_new
    rw [Fifth.popOut_of_rep n _ l' hrep, hmap]
    simp
  · decide

/-- Claim C3: the persistent list (component C) never mutates the receiver:
`prepend` returns a list whose `tail` is literally the original list
(structural sharing) and whose head element is the prepended value; `tail`
of the empty list is the empty list, not an error; and every list derived
by any `prepend`/`tail` call sequence answers `head`/`iter` according to
the spec-level sequence semantics, independently of the others (all
operations are value-level, so earlier lists are untouched by later calls). -/
theorem claim_C3 : ∀ (T : Type) (l : Third.List T) (x : T),
    (l.prepend x).head? = some x ∧
    (l.prepend x).tail = l ∧
    (Third.List.new : Third.List T).tail = Third.List.new ∧
    (∀ ops : LList (Third.POp T),
        (Third.runPOps l ops).elems = Third.modelPOps l.elems ops) ∧
    (∀ n : Nat, Third.iterOut l.iter n = l.elems[n]?) := by
  intro T l x
  refine ⟨rfl, rfl, rfl, ?_, ?_⟩
  · intro ops
    exact Third.elems_runPOps ops l
  · intro n
    exact Third.iterOut_eq_elems_get_rc n l.head

/-- Claim C4: in every state of the queue (component D) reachable from
`new` by pushes and pops — i.e. at every operation boundary — the tail
pointer is null iff the list is empty, and a non-null tail addresses a node
on the chain reachable from `head` that is the unique chain node whose
successor link is absent. -/
theorem claim_C4 : ∀ (T : Type) (ops : LList (Fifth.QOp T)),
    Fifth.tailInv (Fifth.runQOps Fifth.List.new ops) := by
  intro T ops
  obtain ⟨l, hrep⟩ := Fifth.rep_runQOps ops Fifth.List.new [] Fifth.rep_new
  exact Fifth.rep_tailInv hrep

/-- Claim C5: in component B each of the three iterators — consuming
`into_iter`, shared-borrow `iter`, exclusive-borrow `iter_mut` — yields on
its `n`-th `next` call exactly the `n`-th list element in head-to-tail
order, and `none` for every `n` past the length (so after exhaustion every
further `next` returns `none`, forever). -/
theorem claim_C5 : ∀ (T : Type) (l : Second.List T) (n : Nat),
    Second.intoIterOut l.into_iter n = l.elems[n]? ∧
    Second.iterOut l.iter n = l.elems[n]? ∧
    Second.iterMutOut l.iter_mut n = l.elems[n]? := by
  intro T l n
  exact ⟨Second.intoIterOut_eq_elems_get n l, Second.iterOut_eq_elems_get n l.head,
    Second.iterMutOut_eq_elems_get n l.head⟩

/-- Claim C6 counterexample: the claimed pop-result sequence
3, 2, 4, 5, 1, None is not what component A produces on the scenario
push(1), push(2), push(3), pop, pop, push(4), push(5), pop, pop, pop, pop;
being a LIFO stack it returns 5 before 4 after the second push pair. -/
theorem claim_C6_cex :
    First.basicsPops ≠ [some 3, some 2, some 4, some 5, some 1, none] := by
  decide

/-- Claim C6 (amended): the scenario push(1), push(2), push(3), pop, pop,
push(4), push(5), pop, pop, pop, pop on component A produces the
pop-result sequence 3, 2, 5, 4, 1, None. -/
theorem claim_C6 :
    First.basicsPops = [some 3, some 2, some 5, some 4, some 1, none] := by
  decide

/-- Claim C7: teardown of a list of any length terminates in every
component with one node detached per loop iteration: the destructor is the
iteration of a non-recursive step function (constant auxiliary stack per
iteration, the shallow embedding of the explicit Rust loop), which reaches
the terminal state in exactly `length` iterations for components A, B and
the queue D (whose `Drop` repeatedly calls `pop`), and in at most `length`
iterations for the shared component C (whose walk may stop early at a
co-owned node, modelled by the `coOwned` oracle for `Rc::try_unwrap`). -/
theorem claim_C7 :
    (∀ l : First.List,
        First.dropStep^[(First.linkElems l.head).length] l.head = First.Link.Empty ∧
        ∀ k < (First.linkElems l.head).length,
          First.dropStep^[k] l.head ≠ First.Link.Empty) ∧
    (∀ (T : Type) (l : Second.List T),
        Second.dropStep^[(Second.nodeElems l.head).length] l.head = none ∧
        ∀ k < (Second.nodeElems l.head).length, Second.dropStep^[k] l.head ≠ none) ∧
    (∀ (T : Type) (coOwned : Third.Node T → Bool) (l : Third.List T),
        (Third.dropStep coOwned)^[(Third.nodeElems l.head).length] l.head = none) ∧
    (∀ (T : Type) (ops : LList (Fifth.QOp T)),
        ((Fifth.List.popAdv)^[((Fifth.runQOps Fifth.List.new ops).qElems).length]
            (Fifth.runQOps Fifth.List.new ops)).head = none ∧
        ∀ k < ((Fifth.runQOps Fifth.List.new ops).qElems).length,
          ((Fifth.List.popAdv)^[k] (Fifth.runQOps Fifth.List.new ops)).head ≠ none) := by
  refine ⟨?_, ?_, ?_, ?_⟩
  · intro l
    exact First.dropStep_iterate_int (First.linkElems l.head).length l.head rfl
  · intro T l
    exact Second.dropStep_iterate (Second.nodeElems l.head).length l.head rfl
  · intro T coOwned l
    exact Third.dropStep_iterate_rc coOwned (Third.nodeElems l.head).length l.head rfl
  · intro T ops
    obtain ⟨l, hrep⟩ := Fifth.rep_runQOps ops Fifth.List.new [] Fifth.rep_new
    have hq := Fifth.qElems_of_rep hrep
    have hlen : ((Fifth.runQOps Fifth.List.new ops).qElems).length = l.length := by
      rw [hq]
      simp
    obtain ⟨h1, h2⟩ := Fifth.popAdv_iter_of_rep l (Fifth.runQOps Fifth.List.new ops) hrep
    refine ⟨?_, ?_⟩
    · rw [hlen]
      exact h1
    · intro k hk
      rw [hlen] at hk
      exact h2 k hk

/-- Claim C8: in component B, `peek_mut` returns the receiver unchanged
(hence same length and same element sequence; `peek` takes `&self` and is a
pure function of the list in this embedding), writing through the
`peek_mut` reference preserves the length, and on a non-empty list the pop
immediately following such a write returns the written value. -/
theorem claim_C8 : ∀ (T : Type) (l : Second.List T) (v : T),
    (l.peek_mut).2 = l ∧
    ((l.peek_mut).2).len = l.len ∧
    (l.writePeekMut v).len = l.len ∧
    ∀ (x : T) (rest : Option (Second.Node T)),
      (Second.List.writePeekMut { head := some (Second.Node.mk x rest) } v).pop
        = (some v, { head := rest }) := by
  intro T l v
  refine ⟨rfl, rfl, ?_, ?_⟩
  · cases l with
    | mk head =>
      cases head with
      | none => rfl
      | some node =>
          cases node with
          | mk e rest =>
              simp [Second.List.writePeekMut, Second.List.len, Second.List.elems,
                Second.nodeElems, Second.Node.next]
  · intro x rest
    rfl

/-- Claim C9: across all components the only failure outcome is the
empty-list condition — `pop` (A, B, D on every reachable state), `peek` and
`peek_mut` (B), and `head` (C) return `none` exactly when the list is
empty and `some` otherwise; all operations are total functions in this
embedding (no panic path). -/
theorem claim_C9 :
    (∀ l : First.List, (l.pop).1 = none ↔ l.head = First.Link.Empty) ∧
    (∀ (T : Type) (l : Second.List T),
        ((l.pop).1 = none ↔ l.head = none) ∧
        (l.peek = none ↔ l.head = none) ∧
        ((l.peek_mut).1 = none ↔ l.head = none)) ∧
    (∀ (T : Type) (l : Third.List T), l.head? = none ↔ l.head = none) ∧
    (∀ (T : Type) (ops : LList (Fifth.QOp T)),
        ((Fifth.runQOps Fifth.List.new ops).pop).1 = none ↔
          (Fifth.runQOps Fifth.List.new ops).head = none) := by
  refine ⟨?_, ?_, ?_, ?_⟩
  · intro l
    cases l with
    | mk head =>
      cases head with
      | Empty => simp [First.List.pop]
      | More node => simp [First.List.pop]
  · intro T l
    cases l with
    | mk head =>
      cases head with
      | none => simp [Second.List.pop, Second.List.peek, Second.List.peek_mut]
      | some node => simp [Second.List.pop, Second.List.peek, Second.List.peek_mut]
  · intro T l
    cases l with
    | mk head =>
      cases head with
      | none => simp [Third.List.head?]
      | some node => simp [Third.List.head?]
  · intro T ops
    obtain ⟨l, hrep⟩ := Fifth.rep_runQOps ops Fifth.List.new [] Fifth.rep_new
    exact Fifth.pop_none_iff_of_rep hrep

/-- Claim C10 counterexample: component A is not generic over the element
type — `first.rs` fixes `elem: i32`, so the set of element types it
supports is the singleton of the 32-bit integer type, not all types. -/
theorem claim_C10_cex : First.supportedElemTypes ≠ Set.univ := by
  intro h
  have h2 : (Empty : Type) ∈ First.supportedElemTypes := by
    rw [h]
    exact Set.mem_univ _
  have h3 : (Empty : Type) = Int := by
    simpa [First.supportedElemTypes] using h2
  exact (cast h3.symm (0 : Int)).elim

/-- Claim C10 (amended): components B, C and D are generic over the element
type — their operations work at every type, with no constraint beyond
storability — while component A's stack is fixed to the 32-bit signed
integer element type. -/
theorem claim_C10 :
    (∀ (T : Type) (x : T),
        ((Second.List.new : Second.List T).push x).pop = (some x, Second.List.new) ∧
        ((Third.List.new : Third.List T).prepend x).head? = some x ∧
        (((Fifth.List.new : Fifth.List T).push x).pop).1 = some x) ∧
    First.supportedElemTypes = {Int} := by
  exact ⟨fun T x => ⟨rfl, rfl, rfl⟩, rfl⟩
